import Mathlib

/-!
Verification of `lib/rest-adapter.js` (strong-remoting REST adapter).

The JavaScript source is embedded shallowly:

* JS strings are Lean `String`s; where kernel-evaluable recursion is needed we
  work on `String.data : List Char`.  JS string comparison (`<`, `>`) is code
  point lexicographic comparison (`lexCmp`); JS `toLowerCase` is modelled on
  the ASCII range (`lowerChar`), which covers every verb and path used here.
* `undefined`/missing JS values are `Option`/`none`; where dynamic typing
  matters (claims about non-string inputs) a small universe `JsVal` of
  JavaScript values is used, with JS truthiness as `jsTruthy`.
* callback-style control flow is turned into explicit outcome values and
  returned state.

Line numbers in doc comments refer to `lib/rest-adapter.js`.
-/

/-! ### Basic primitives: comparison, lowercasing, splitting on a slash -/

/-- Three-way comparison of naturals, used to model JS `<`/`>` tests. -/
def natCmp (a b : Nat) : Ordering :=
  if a < b then .lt else if a = b then .eq else .gt

/-- Three-way comparison of characters by code point (JS compares strings
code unit by code unit; for the ASCII data handled here this coincides). -/
def charCmp (a b : Char) : Ordering :=
  natCmp a.toNat b.toNat

/-- Lexicographic three-way comparison of character lists: the model of the
JS string relational operators `p1[i] > p2[i]` / `p1[i] < p2[i]`. -/
def lexCmp : List Char → List Char → Ordering
  | [], [] => .eq
  | [], _ :: _ => .lt
  | _ :: _, [] => .gt
  | a :: as, b :: bs => (charCmp a b).then (lexCmp as bs)

/-- ASCII lowercasing of one character, the behaviour of JS `toLowerCase`
on the ASCII range (identical to core `Char.toLower`, stated via `toNat`). -/
def lowerChar (c : Char) : Char :=
  if 65 ≤ c.toNat ∧ c.toNat ≤ 90 then Char.ofNat (c.toNat + 32) else c

/-- Model of JS `String.prototype.toLowerCase` (ASCII range). -/
def toLowerStr (s : String) : String :=
  ⟨s.data.map lowerChar⟩

/-- Model of JS `path.split('/')` on the character list of the string:
`"/a/b"` becomes `["", "a", "b"]`, `""` becomes `[""]`, `"a//b"` becomes
`["a", "", "b"]`. -/
def splitSeg : List Char → List (List Char)
  | [] => [[]]
  | c :: cs =>
    if c = '/' then [] :: splitSeg cs
    else
      match splitSeg cs with
      | [] => [[c]]
      | s :: ss => (c :: s) :: ss

/-- Joining segments back with `'/'`; the inverse of `splitSeg` and the
"keep the slashes" part of `path.replace(/[^\/]+/g, fn)`. -/
def joinSegsChars : List (List Char) → List Char
  | [] => []
  | [s] => s
  | s :: ss => s ++ '/' :: joinSegsChars ss

/-! ### PathNormalizer (`normalizeHttpPath`, lines 120-130) -/

/-- ASCII uppercase test (as in the inflection library's underscore step). -/
def isUpperChar (c : Char) : Bool :=
  65 ≤ c.toNat ∧ c.toNat ≤ 90

/-- One leading underscore is dropped (the underscore step's `^_` cleanup,
so a leading uppercase letter does not produce a leading delimiter). -/
def stripLeadingUnderscore : List Char → List Char
  | [] => []
  | c :: cs => if c = '_' then cs else c :: cs

/-- Modelled from the spec: the "word-delimiter insertion" half of the fixed
two-step transform applied by `inflection.transform(match, ['underscore',
'dasherize'])` (line 124).  The inflection package is an external dependency
whose code is not part of this repository; following the spec's description,
an underscore is inserted before every uppercase letter, the result is
lowercased and a leading delimiter is cleaned up. -/
def underscoreChars (seg : List Char) : List Char :=
  stripLeadingUnderscore
    (seg.flatMap fun c => if isUpperChar c then ['_', lowerChar c] else [c])

/-- Modelled from the spec: the "dash-casing" half of the two-step transform
(line 124); every underscore becomes a dash. -/
def dasherizeChars (seg : List Char) : List Char :=
  seg.map fun c => if c = '_' then '-' else c

/-- Modelled from the spec: `inflection.transform(match, ['underscore',
'dasherize'])` (line 124), word-delimiter insertion followed by dash-casing. -/
def inflectionTransformChars (seg : List Char) : List Char :=
  dasherizeChars (underscoreChars seg)

/-- The replacement applied to one maximal slash-free run of the path by
`normalizeHttpPath` (lines 122-125): segments containing the placeholder
marker `':'` are skipped, other segments go through the two-step transform.
(The regex `[^\/]+` never matches an empty run; an empty segment is also a
fixed point of the transform, so it is safe to apply this uniformly.) -/
def normSegChars (seg : List Char) : List Char :=
  if ':' ∈ seg then seg else inflectionTransformChars seg

/-- `normalizeHttpPath` (lines 120-126) on string input:
`path.replace(/[^\/]+/g, fn)` splits the path into slash-delimited runs,
rewrites each run by `normSegChars` and keeps the slashes. -/
def normalizeHttpPathStr (path : String) : String :=
  ⟨joinSegsChars ((splitSeg path.data).map normSegChars)⟩

/-- `untransformedPath` (lines 128-130): the identity, used when path
normalization is disabled. -/
def untransformedPath (path : String) : String :=
  path

/-! ### JavaScript values (for the dynamic-typing claims C9 and C10) -/

/-- A small universe of JavaScript values: enough to express claims about
non-string inputs.  `jsUndefined` is `undefined`. -/
inductive JsVal where
  | str (s : String)
  | num (n : Int)
  | boolV (b : Bool)
  | obj
  | nullV
  | jsUndefined
deriving DecidableEq, Repr

/-- JS truthiness: `""`, `0`, `false`, `null` and `undefined` are falsy. -/
def jsTruthy : JsVal → Bool
  | .str s => s ≠ ""
  | .num n => n ≠ 0
  | .boolV b => b
  | .obj => true
  | .nullV => false
  | .jsUndefined => false

/-- `typeof v === 'string'`. -/
def JsVal.isString : JsVal → Bool
  | .str _ => true
  | _ => false

/-- `normalizeHttpPath` (lines 120-126) including its dynamic type guard:
`if (typeof path !== 'string') return;` yields `undefined` for every
non-string input; strings are rewritten by `normalizeHttpPathStr`. -/
def normalizeHttpPath (path : JsVal) : JsVal :=
  match path with
  | .str s => .str (normalizeHttpPathStr s)
  | _ => .jsUndefined

/-- The path patch applied to one declared route by `getRoutes`
(line 97: `r.path = toPath(r.path || ('/' + obj.name))`), tracked at the
`JsVal` level with normalization enabled or disabled. -/
def derivedDeclaredPathJs (normalize : Bool) (name : String) (path : JsVal) : JsVal :=
  let arg := if jsTruthy path then path else .str ("/" ++ name)
  if normalize then normalizeHttpPath arg else arg

/-! ### RouteDeriver (`getRoutes`, lines 77-115) -/

/-- A derived route: a verb and a path template. -/
structure Route where
  verb : String
  path : String
deriving DecidableEq, Repr

/-- A declared route override as found in `obj.http`: verb and path may each
be missing (`none` models a missing or otherwise falsy slot, which JS `||`
replaces by the default; an explicitly declared empty string is falsy too and
is folded into `none`'s case by the `= ""` tests below). -/
structure DeclRoute where
  verb : Option String
  path : Option String
deriving DecidableEq, Repr

/-- Adapter-wide options (`this.options`); only the path-normalization flag
matters here, with `Bool` standing for the truthiness of the configured
value. -/
structure AdapterOptions where
  normalizeHttpPath : Bool
deriving DecidableEq, Repr

/-- The entity handed to `getRoutes`: a shared class, shared method or shared
constructor.  `name = ""` models a missing or empty (falsy) name.
`classNormalize` is `sharedClass.options && sharedClass.options.normalizeHttpPath`
(lines 84-86): `none` when that read is `undefined` (so the adapter-wide
option applies, line 87-89), `some b` for a defined value of truthiness `b`. -/
structure Entity where
  name : String
  http : Option (List DeclRoute)
  classNormalize : Option Bool
deriving DecidableEq, Repr

/-- The normalizer selected by `getRoutes` (lines 86-90): the class-level
option wins; only when it is undefined does the adapter-wide option apply. -/
def selectToPath (e : Entity) (options : AdapterOptions) : String → String :=
  let normalize := match e.classNormalize with
    | some b => b
    | none => options.normalizeHttpPath
  if normalize then normalizeHttpPathStr else untransformedPath

/-- Patching of one declared route (lines 95-98):
`r.verb = String(r.verb || 'all').toLowerCase()` and
`r.path = toPath(r.path || ('/' + obj.name))`. -/
def patchDeclaredRoute (toPath : String → String) (name : String) (r : DeclRoute) : Route :=
  { verb := toLowerStr (match r.verb with
      | none => "all"
      | some v => if v = "" then "all" else v),
    path := toPath (match r.path with
      | none => "/" ++ name
      | some p => if p = "" then "/" ++ name else p) }

/-- `getRoutes` (lines 77-115).  Declared routes are patched in place; with
no declared routes the shared constructor gets the fixed `/prototype` route
and every other entity gets the default route derived from its name. -/
def getRoutes (e : Entity) (options : AdapterOptions) : List Route :=
  let toPath := selectToPath e options
  match e.http with
  | some rs => rs.map (patchDeclaredRoute toPath e.name)
  | none =>
    if e.name = "sharedCtor" then
      [{ verb := "all", path := "/prototype" }]
    else
      [{ verb := "all", path := if e.name = "" then "" else toPath ("/" ++ e.name) }]

/-! ### RouteComposer (`joinPaths`, lines 759-770; `RestMethod`, lines 650-662) -/

/-- `joinPaths` (lines 759-770).  `left[left.length - 1]` and `right[0]` are
read off the character lists; `right.slice(1)` is `right.data.tail`. -/
def joinPaths (left right : String) : String :=
  if left = "" then right
  else if right = "" ∨ right = "/" then left
  else if left.data.getLast? = some '/' ∧ right.data.head? = some '/' then
    ⟨left.data ++ right.data.tail⟩
  else if left.data.getLast? = some '/' ∨ right.data.head? = some '/' then
    ⟨left.data ++ right.data⟩
  else
    ⟨left.data ++ '/' :: right.data⟩

/-- The data of a shared method needed to build its `RestMethod` route list:
the `getRoutes` entity plus the `isStatic` flag. -/
structure MethodEnt where
  ent : Entity
  isStatic : Bool
deriving DecidableEq, Repr

/-- The route list built by the `RestMethod` constructor (lines 650-662).
`ctorRoutes` is the route list of `restClass.ctor` when the shared class has
a shared constructor, `none` otherwise.  For a prototype method of a class
with a constructor, the routes are the cross product of method routes and
constructor routes, joined by `joinPaths(ctorRoute.path, route.path)`. -/
def restMethodRoutes (opts : AdapterOptions) (ctorRoutes : Option (List Route))
    (m : MethodEnt) : List Route :=
  let methodRoutes := getRoutes m.ent opts
  match m.isStatic, ctorRoutes with
  | true, _ => methodRoutes
  | false, none => methodRoutes
  | false, some crs =>
    methodRoutes.flatMap fun route =>
      crs.map fun ctorRoute => { route with path := joinPaths ctorRoute.path route.path }

/-! ### RouteRanker (`sortRoutes`, lines 251-303) -/

/-- The element handed to `sortRoutes` by `createHandler`
(lines 361-367): an object with a `route` slot (the method slot plays no
role in the comparison). -/
structure RouteEntry where
  route : Route
deriving DecidableEq, Repr

/-- Verb normalization inside `sortRoutes` (lines 256-264): lowercase, then
the legacy `del` spelling becomes `delete`. -/
def normVerb (v : String) : String :=
  let lv := toLowerStr v
  if lv = "del" then "delete" else lv

/-- `p[i][0] === ':'` — a placeholder (wildcard) segment.  JS indexing of an
empty string gives `undefined`, which is never `':'`. -/
def isWild (seg : List Char) : Bool :=
  match seg with
  | c :: _ => c = ':'
  | [] => false

/-- One iteration of the segment loop of `sortRoutes` (lines 280-299) as a
three-way verdict: `.gt` for `return 1`, `.lt` for `return -1`, `.eq` for
"continue with the next segment".  Empty beats nothing (lines 282-286),
wildcard has lower weight (lines 288-292), then plain string comparison
(lines 294-298). -/
def segOrd (s t : List Char) : Ordering :=
  if s = [] ∧ t ≠ [] then .gt
  else if s ≠ [] ∧ t = [] then .lt
  else if isWild s ∧ ¬ isWild t then .gt
  else if ¬ isWild s ∧ isWild t then .lt
  else lexCmp s t

/-- The segment loop of `sortRoutes` (lines 275-302): compare part by part up
to the shorter length; if every compared part ties, return
`p2.length - p1.length` (the remaining lengths differ by exactly the full
lengths' difference). -/
def segLoop : List (List Char) → List (List Char) → Int
  | s :: ss, t :: ts =>
    match segOrd s t with
    | .gt => 1
    | .lt => -1
    | .eq => segLoop ss ts
  | ss, ts => (ts.length : Int) - (ss.length : Int)

/-- `sortRoutes` (lines 251-303): first by normalized verb, descending
(`verb1 > verb2` returns `-1`), then by the path segments. -/
def sortRoutes (r1 r2 : RouteEntry) : Int :=
  let a := r1.route
  let b := r2.route
  let verb1 := normVerb a.verb
  let verb2 := normVerb b.verb
  match lexCmp verb1.data verb2.data with
  | .gt => -1
  | .lt => 1
  | .eq => segLoop (splitSeg a.path.data) (splitSeg b.path.data)

/-- `methods.sort(sortRoutes)` (line 367): JS `Array.prototype.sort` is a
stable sort driven by the sign of the comparator. -/
def sortRoutesList (l : List RouteEntry) : List RouteEntry :=
  l.mergeSort fun a b => decide (sortRoutes a b ≤ 0)

/-- Proof-side rank of a segment: empty segments weigh most, wildcards next,
literals least (smaller rank sorts earlier). -/
def rank (seg : List Char) : Nat :=
  if seg = [] then 2 else if isWild seg then 1 else 0

/-- Proof-side `Ordering` view of the segment loop. -/
def segListCmpO : List (List Char) → List (List Char) → Ordering
  | [], [] => .eq
  | [], _ :: _ => .gt
  | _ :: _, [] => .lt
  | s :: ss, t :: ts => (segOrd s t).then (segListCmpO ss ts)

/-- Proof-side `Ordering` view of `sortRoutes`. -/
def sortRoutesO (a b : Route) : Ordering :=
  (lexCmp (normVerb b.verb).data (normVerb a.verb).data).then
    (segListCmpO (splitSeg a.path.data) (splitSeg b.path.data))

/-- Sign of an `Ordering` as an integer. -/
def osign : Ordering → Int
  | .lt => -1
  | .eq => 0
  | .gt => 1

/-! Claim-side comparator for C1, written from the claim's words rather than
from the loop in the source, to be compared with `sortRoutes`. -/

/-- Claim-side ranking of two segments at the same position: an empty segment
ranks after a non-empty one, a placeholder segment (first character `':'`)
ranks after a literal segment, otherwise the segments compare
lexicographically ascending. -/
def claimSegRank (s t : List Char) : Ordering :=
  if s = [] ∧ t ≠ [] then .gt
  else if t = [] ∧ s ≠ [] then .lt
  else if isWild s ∧ ¬ isWild t then .gt
  else if isWild t ∧ ¬ isWild s then .lt
  else lexCmp s t

/-- The first discriminating verdict of a list of comparisons (rules applied
in sequence until one discriminates). -/
def firstVerdict : List Ordering → Ordering
  | [] => .eq
  | o :: os => o.then (firstVerdict os)

/-- Claim-side comparator: verbs (lowercased, `del` normalized to `delete`)
lexicographically descending; then the segment ranks position by position up
to the shorter length; if all compared segments tie, the path with more
segments ranks first. -/
def claimRouteCmp (a b : Route) : Ordering :=
  let pa := splitSeg a.path.data
  let pb := splitSeg b.path.data
  (lexCmp (normVerb b.verb).data (normVerb a.verb).data).then
    ((firstVerdict (List.zipWith claimSegRank pa pb)).then (natCmp pb.length pa.length))

/-! ### MethodIndex (`getRestMethodByName`, lines 206-243) -/

/-- A rest method as seen by the name index: its full name plus an identity
tag (so that distinct methods sharing a name stay distinct in the model). -/
structure RestMethodM where
  fullName : String
  tag : Nat
deriving DecidableEq, Repr

/-- Lookup in the cache object: JS `map[restMethod.fullName] = restMethod`
lets the last write win, so a lookup finds the last entry with the name. -/
def cacheLookup (cache : List RestMethodM) (name : String) : Option RestMethodM :=
  (cache.filter fun m => m.fullName = name).getLast?

/-- `_createRestMethodByNameCache` (lines 210-221): flatten all classes'
methods into one name-keyed map, modelled as the flattened entry list. -/
def _createRestMethodByNameCache (classes : List (List RestMethodM)) : List RestMethodM :=
  classes.flatten

/-- The final check of `getRestMethodByName` (lines 237-240):
`if (ret && !isMethodEnabled(ret)) ret = undefined` — a found-but-disabled
method is reported as not found. -/
def maskEnabled (enabled : RestMethodM → Bool) : Option RestMethodM → Option RestMethodM
  | some r => if enabled r then some r else none
  | none => none

/-- `getRestMethodByName` (lines 223-243).  `enabled` is the live
`ret.sharedMethod.sharedClass.isMethodEnabled(ret.sharedMethod)` check;
`cache` is `this._cachedRestMethodsByName` (`none` when not built yet);
the result is the returned method (if any) paired with the new cache state.
A lookup that finds nothing in the existing cache (or has no cache) rebuilds
the cache once and retries (lines 229-235); the result then passes the
enabled mask. -/
def getRestMethodByName (enabled : RestMethodM → Bool)
    (classes : List (List RestMethodM)) (cache : Option (List RestMethodM))
    (name : String) : Option RestMethodM × Option (List RestMethodM) :=
  let ret0 : Option RestMethodM :=
    match cache with
    | some c => cacheLookup c name
    | none => none
  match ret0 with
  | some r => (maskEnabled enabled (some r), cache)
  | none =>
    let c := _createRestMethodByNameCache classes
    (maskEnabled enabled (cacheLookup c name), some c)

/-! ### InvocationPipeline (`_createPrototypeMethodHandler` lines 491-512,
`_invokeMethod` lines 514-547) -/

/-- The pipeline stages queued by `_invokeMethod` into its `steps` list. -/
inductive PipeStep where
  | restBefore
  | invokeInContext
  | restAfter
deriving DecidableEq, Repr

/-- The slots of the `HttpContext` touched by the prototype-method handler:
`ctx.sharedCtorError` and `ctx.instance` (here `inst`, as `instance` is a
Lean keyword). -/
structure HttpCtx (E I : Type) where
  sharedCtorError : Option E := none
  inst : Option I := none

/-- The outcome delivered by `ctx.invoke(sharedMethod.ctor,
sharedMethod.sharedCtor, callback)` to the handler's callback (line 499). -/
inductive CtorOutcome (E I : Type) where
  | failure (e : E)
  | success (i : I)

/-- The step list assembled by `_invokeMethod` (lines 514-535): an optional
`rest.before` hook, the `invokeMethodInContext` call, an optional
`rest.after` hook, run in sequence by `async.series`. -/
def _invokeMethodSteps (hasBefore hasAfter : Bool) : List PipeStep :=
  (if hasBefore then [PipeStep.restBefore] else []) ++
    [PipeStep.invokeInContext] ++
    (if hasAfter then [PipeStep.restAfter] else [])

/-- The prototype-method handler body (lines 495-511): a fresh context is
built, the shared constructor is invoked, and on failure the error is stored
in `ctx.sharedCtorError` (not propagated) while on success the instance is
stored in `ctx.instance`; in both cases `_invokeMethod` is entered next.
The returned pair is the context as passed to `_invokeMethod` together with
the step list `_invokeMethod` will run. -/
def restPrototypeMethodHandler {E I : Type} (outcome : CtorOutcome E I)
    (hasBefore hasAfter : Bool) : HttpCtx E I × List PipeStep :=
  let ctx : HttpCtx E I := {}
  match outcome with
  | .failure e =>
    ({ ctx with sharedCtorError := some e }, _invokeMethodSteps hasBefore hasAfter)
  | .success i =>
    ({ ctx with inst := some i }, _invokeMethodSteps hasBefore hasAfter)

/-! ### RouteTable configuration guard (`createHandler`, lines 307-317) -/

/-- `this.remotes.options` as far as `createHandler`'s guard reads it:
the `cors` property, `none` when absent (reading it then gives `undefined`). -/
structure RemotesOptions where
  cors : Option JsVal
deriving DecidableEq, Repr

/-- The error message thrown for the removed legacy CORS option. -/
def corsErrorMessage : String :=
  "The REST adapter no longer comes with a built-in CORS middleware, " ++
    "the config option remoting.cors is no longer available."

/-- The synchronous guard at the top of `createHandler` (lines 307-317):
`if (corsOptions !== undefined && corsOptions !== false) throw new Error(...)`.
The guard runs before any router is constructed; the rest of
`createHandler` is abstracted to `Except.ok ()`. -/
def createHandlerCorsGuard (opts : RemotesOptions) : Except String Unit :=
  let corsOptions := opts.cors.getD JsVal.jsUndefined
  if corsOptions ≠ JsVal.jsUndefined ∧ corsOptions ≠ JsVal.boolV false then
    Except.error corsErrorMessage
  else
    Except.ok ()

/-! ### Helper lemmas: three-way comparisons -/

theorem natCmp_eq_lt {a b : Nat} : natCmp a b = .lt ↔ a < b := by
  unfold natCmp
  split
  · simp [*]
  · split <;> simp <;> omega

theorem natCmp_eq_eq {a b : Nat} : natCmp a b = .eq ↔ a = b := by
  unfold natCmp
  split
  · simp; omega
  · split <;> simp <;> omega

theorem natCmp_eq_gt {a b : Nat} : natCmp a b = .gt ↔ b < a := by
  unfold natCmp
  split
  · simp; omega
  · split <;> simp <;> omega

theorem natCmp_swap (a b : Nat) : (natCmp a b).swap = natCmp b a := by
  unfold natCmp
  rcases Nat.lt_trichotomy a b with h | h | h
  · rw [if_pos h, if_neg (show ¬ b < a by omega), if_neg (show ¬ b = a by omega)]
    rfl
  · subst h
    rw [if_neg (show ¬ a < a by omega), if_pos rfl]
    rfl
  · rw [if_neg (show ¬ a < b by omega), if_neg (show ¬ a = b by omega), if_pos h]
    rfl

theorem charCmp_eq_eq {a b : Char} : charCmp a b = .eq ↔ a = b := by
  unfold charCmp
  rw [natCmp_eq_eq]
  constructor
  · intro h
    exact Char.ext (UInt32.toNat.inj h)
  · rintro rfl
    rfl

theorem charCmp_swap (a b : Char) : (charCmp a b).swap = charCmp b a :=
  natCmp_swap _ _

theorem charCmp_lt_trans {a b c : Char} (h1 : charCmp a b = .lt)
    (h2 : charCmp b c = .lt) : charCmp a c = .lt := by
  unfold charCmp at *
  rw [natCmp_eq_lt] at h1 h2 ⊢
  omega

theorem lexCmp_eq_eq : ∀ {as bs : List Char}, lexCmp as bs = .eq ↔ as = bs := by
  intro as
  induction as with
  | nil =>
    intro bs
    cases bs <;> simp [lexCmp]
  | cons a as ih =>
    intro bs
    cases bs with
    | nil => simp [lexCmp]
    | cons b bs => simp [lexCmp, Ordering.then_eq_eq, charCmp_eq_eq, ih]

theorem lexCmp_swap : ∀ (as bs : List Char), (lexCmp as bs).swap = lexCmp bs as := by
  intro as
  induction as with
  | nil =>
    intro bs
    cases bs <;> rfl
  | cons a as ih =>
    intro bs
    cases bs with
    | nil => rfl
    | cons b bs =>
      show ((charCmp a b).then (lexCmp as bs)).swap = (charCmp b a).then (lexCmp bs as)
      rw [Ordering.swap_then, charCmp_swap, ih]

theorem lexCmp_lt_trans : ∀ {as bs cs : List Char},
    lexCmp as bs = .lt → lexCmp bs cs = .lt → lexCmp as cs = .lt := by
  intro as
  induction as with
  | nil =>
    intro bs cs h1 h2
    cases bs with
    | nil => exact absurd h1 (by simp [lexCmp])
    | cons b bs =>
      cases cs with
      | nil => exact absurd h2 (by simp [lexCmp])
      | cons c cs => rfl
  | cons a as ih =>
    intro bs cs h1 h2
    cases bs with
    | nil => exact absurd h1 (by simp [lexCmp])
    | cons b bs =>
      cases cs with
      | nil => exact absurd h2 (by simp [lexCmp])
      | cons c cs =>
        rw [show lexCmp (a :: as) (b :: bs) = (charCmp a b).then (lexCmp as bs) from rfl,
          Ordering.then_eq_lt] at h1
        rw [show lexCmp (b :: bs) (c :: cs) = (charCmp b c).then (lexCmp bs cs) from rfl,
          Ordering.then_eq_lt] at h2
        rw [show lexCmp (a :: as) (c :: cs) = (charCmp a c).then (lexCmp as cs) from rfl,
          Ordering.then_eq_lt]
        rcases h1 with h1 | ⟨e1, l1⟩ <;> rcases h2 with h2 | ⟨e2, l2⟩
        · exact Or.inl (charCmp_lt_trans h1 h2)
        · rw [charCmp_eq_eq] at e2
          subst e2
          exact Or.inl h1
        · rw [charCmp_eq_eq] at e1
          subst e1
          exact Or.inl h2
        · rw [charCmp_eq_eq] at e1
          subst e1
          exact Or.inr ⟨e2, ih l1 l2⟩

/-! ### Helper lemmas: segment ordering -/

theorem isWild_nil : isWild [] = false := rfl

theorem segOrd_key (s t : List Char) :
    segOrd s t = (natCmp (rank s) (rank t)).then (lexCmp s t) := by
  rcases s with _ | ⟨c, cs⟩ <;> rcases t with _ | ⟨d, ds⟩
  · rfl
  · by_cases wd : d = ':' <;>
      simp [segOrd, rank, isWild, natCmp, wd, Ordering.then]
  · by_cases wc : c = ':' <;>
      simp [segOrd, rank, isWild, natCmp, wc, Ordering.then]
  · by_cases wc : c = ':' <;> by_cases wd : d = ':' <;>
      simp [segOrd, rank, isWild, natCmp, wc, wd, Ordering.then]

theorem segOrd_eq_eq {s t : List Char} : segOrd s t = .eq ↔ s = t := by
  rw [segOrd_key, Ordering.then_eq_eq, natCmp_eq_eq, lexCmp_eq_eq]
  constructor
  · rintro ⟨_, h⟩
    exact h
  · rintro rfl
    exact ⟨rfl, rfl⟩

theorem segOrd_swap (s t : List Char) : (segOrd s t).swap = segOrd t s := by
  rw [segOrd_key, segOrd_key, Ordering.swap_then, natCmp_swap, lexCmp_swap]

theorem segOrd_lt_trans {s t u : List Char} (h1 : segOrd s t = .lt)
    (h2 : segOrd t u = .lt) : segOrd s u = .lt := by
  rw [segOrd_key, Ordering.then_eq_lt] at h1 h2 ⊢
  simp only [natCmp_eq_lt, natCmp_eq_eq] at h1 h2 ⊢
  rcases h1 with h1 | ⟨e1, l1⟩ <;> rcases h2 with h2 | ⟨e2, l2⟩
  · exact Or.inl (by omega)
  · exact Or.inl (by omega)
  · exact Or.inl (by omega)
  · exact Or.inr ⟨by omega, lexCmp_lt_trans l1 l2⟩

theorem segOrd_gt_iff {s t : List Char} : segOrd s t = .gt ↔ segOrd t s = .lt := by
  rw [← segOrd_swap t s]
  cases segOrd t s <;> simp [Ordering.swap]

theorem segListCmpO_eq_eq : ∀ {ss ts : List (List Char)},
    segListCmpO ss ts = .eq ↔ ss = ts := by
  intro ss
  induction ss with
  | nil =>
    intro ts
    cases ts <;> simp [segListCmpO]
  | cons s ss ih =>
    intro ts
    cases ts with
    | nil => simp [segListCmpO]
    | cons t ts => simp [segListCmpO, Ordering.then_eq_eq, segOrd_eq_eq, ih]

theorem segListCmpO_swap : ∀ (ss ts : List (List Char)),
    (segListCmpO ss ts).swap = segListCmpO ts ss := by
  intro ss
  induction ss with
  | nil =>
    intro ts
    cases ts <;> rfl
  | cons s ss ih =>
    intro ts
    cases ts with
    | nil => rfl
    | cons t ts =>
      show ((segOrd s t).then (segListCmpO ss ts)).swap = (segOrd t s).then (segListCmpO ts ss)
      rw [Ordering.swap_then, segOrd_swap, ih]

theorem segListCmpO_lt_trans : ∀ {ss ts us : List (List Char)},
    segListCmpO ss ts = .lt → segListCmpO ts us = .lt → segListCmpO ss us = .lt := by
  intro ss
  induction ss with
  | nil =>
    intro ts us h1 h2
    cases ts with
    | nil => exact absurd h1 (by simp [segListCmpO])
    | cons t ts => exact absurd h1 (by simp [segListCmpO])
  | cons s ss ih =>
    intro ts us h1 h2
    cases ts with
    | nil => exact absurd h2 (by cases us <;> simp [segListCmpO])
    | cons t ts =>
      cases us with
      | nil => rfl
      | cons u us =>
        rw [show segListCmpO (s :: ss) (t :: ts) = (segOrd s t).then (segListCmpO ss ts)
            from rfl, Ordering.then_eq_lt] at h1
        rw [show segListCmpO (t :: ts) (u :: us) = (segOrd t u).then (segListCmpO ts us)
            from rfl, Ordering.then_eq_lt] at h2
        rw [show segListCmpO (s :: ss) (u :: us) = (segOrd s u).then (segListCmpO ss us)
            from rfl, Ordering.then_eq_lt]
        rcases h1 with h1 | ⟨e1, l1⟩ <;> rcases h2 with h2 | ⟨e2, l2⟩
        · exact Or.inl (segOrd_lt_trans h1 h2)
        · rw [segOrd_eq_eq] at e2
          subst e2
          exact Or.inl h1
        · rw [segOrd_eq_eq] at e1
          subst e1
          exact Or.inl h2
        · rw [segOrd_eq_eq] at e1
          subst e1
          exact Or.inr ⟨e2, ih l1 l2⟩

theorem segLoop_cases : ∀ (ss ts : List (List Char)),
    (segListCmpO ss ts = .lt ∧ segLoop ss ts < 0) ∨
    (segListCmpO ss ts = .eq ∧ segLoop ss ts = 0) ∨
    (segListCmpO ss ts = .gt ∧ 0 < segLoop ss ts) := by
  intro ss
  induction ss with
  | nil =>
    intro ts
    cases ts with
    | nil => exact Or.inr (Or.inl ⟨rfl, rfl⟩)
    | cons t ts =>
      refine Or.inr (Or.inr ⟨rfl, ?_⟩)
      show (0 : Int) < ((t :: ts).length : Int) - (([] : List (List Char)).length : Int)
      have h0 : (0 : Int) < ((t :: ts).length : Int) := by exact_mod_cast Nat.succ_pos ts.length
      have h1 : (([] : List (List Char)).length : Int) = 0 := rfl
      omega
  | cons s ss ih =>
    intro ts
    cases ts with
    | nil =>
      refine Or.inl ⟨rfl, ?_⟩
      show (([] : List (List Char)).length : Int) - ((s :: ss).length : Int) < 0
      have h0 : (0 : Int) < ((s :: ss).length : Int) := by exact_mod_cast Nat.succ_pos ss.length
      have h1 : (([] : List (List Char)).length : Int) = 0 := rfl
      omega
    | cons t ts =>
      have hlist : segListCmpO (s :: ss) (t :: ts) = (segOrd s t).then (segListCmpO ss ts) := rfl
      cases h : segOrd s t with
      | lt =>
        refine Or.inl ⟨by rw [hlist, h]; rfl, ?_⟩
        show segLoop (s :: ss) (t :: ts) < 0
        simp [segLoop, h]
      | gt =>
        refine Or.inr (Or.inr ⟨by rw [hlist, h]; rfl, ?_⟩)
        show (0 : Int) < segLoop (s :: ss) (t :: ts)
        simp [segLoop, h]
      | eq =>
        have hstep : segLoop (s :: ss) (t :: ts) = segLoop ss ts := by
          simp [segLoop, h]
        rw [hlist, h, hstep]
        exact ih ts

theorem segLoop_neg : ∀ (ss ts : List (List Char)), segLoop ss ts = - segLoop ts ss := by
  intro ss
  induction ss with
  | nil =>
    intro ts
    cases ts with
    | nil => rfl
    | cons t ts =>
      show ((t :: ts).length : Int) - 0 = - (0 - ((t :: ts).length : Int))
      omega
  | cons s ss ih =>
    intro ts
    cases ts with
    | nil =>
      show (0 : Int) - ((s :: ss).length : Int) = - (((s :: ss).length : Int) - 0)
      omega
    | cons t ts =>
      have hswap : segOrd t s = (segOrd s t).swap := (segOrd_swap s t).symm
      cases h : segOrd s t with
      | lt =>
        have h2 : segOrd t s = .gt := by rw [hswap, h]; rfl
        simp [segLoop, h, h2]
      | gt =>
        have h2 : segOrd t s = .lt := by rw [hswap, h]; rfl
        simp [segLoop, h, h2]
      | eq =>
        have h2 : segOrd t s = .eq := by rw [hswap, h]; rfl
        simp only [segLoop, h, h2]
        exact ih ts

/-! ### Helper lemmas: splitting and joining on slashes -/

theorem splitSeg_ne_nil : ∀ (cs : List Char), splitSeg cs ≠ [] := by
  intro cs
  cases cs with
  | nil => simp [splitSeg]
  | cons c cs =>
    rw [splitSeg]
    split
    · simp
    · split
      · simp
      · simp

theorem joinSegsChars_cons (s : List Char) (ss : List (List Char)) (h : ss ≠ []) :
    joinSegsChars (s :: ss) = s ++ '/' :: joinSegsChars ss := by
  cases ss with
  | nil => exact absurd rfl h
  | cons t ts => rfl

theorem joinSegsChars_splitSeg : ∀ (cs : List Char), joinSegsChars (splitSeg cs) = cs := by
  intro cs
  induction cs with
  | nil => rfl
  | cons c cs ih =>
    rw [splitSeg]
    by_cases hc : c = '/'
    · rw [if_pos hc, joinSegsChars_cons _ _ (splitSeg_ne_nil cs), ih, hc]
      rfl
    · rw [if_neg hc]
      rcases hsp : splitSeg cs with _ | ⟨s, ss⟩
      · exact absurd hsp (splitSeg_ne_nil cs)
      · rcases ss with _ | ⟨t, ts⟩
        · show c :: s = c :: cs
          have := ih
          rw [hsp] at this
          simpa using this
        · show (c :: s) ++ '/' :: joinSegsChars (t :: ts) = c :: cs
          have := ih
          rw [hsp, joinSegsChars_cons _ _ (by simp)] at this
          simpa using this

theorem splitSeg_inj {cs ds : List Char} (h : splitSeg cs = splitSeg ds) : cs = ds := by
  have h1 := joinSegsChars_splitSeg cs
  have h2 := joinSegsChars_splitSeg ds
  rw [← h1, ← h2, h]

theorem splitSeg_no_slash : ∀ (cs : List Char), ∀ l ∈ splitSeg cs, '/' ∉ l := by
  intro cs
  induction cs with
  | nil =>
    intro l hl
    have hleq : l = [] := by simpa [splitSeg] using hl
    subst hleq
    exact List.not_mem_nil _
  | cons c cs ih =>
    intro l hl
    rw [splitSeg] at hl
    by_cases hc : c = '/'
    · rw [if_pos hc] at hl
      rcases List.mem_cons.mp hl with rfl | hl
      · simp
      · exact ih l hl
    · rw [if_neg hc] at hl
      rcases hsp : splitSeg cs with _ | ⟨s, ss⟩
      · exact absurd hsp (splitSeg_ne_nil cs)
      · rw [hsp] at hl
        rcases List.mem_cons.mp hl with rfl | hl
        · have hs : '/' ∉ s := ih s (by rw [hsp]; exact List.mem_cons_self s ss)
          intro hmem
          rcases List.mem_cons.mp hmem with h1 | h1
          · exact hc h1.symm
          · exact hs h1
        · exact ih l (by rw [hsp]; exact List.mem_cons_of_mem s hl)

theorem splitSeg_of_no_slash : ∀ {s : List Char}, '/' ∉ s → splitSeg s = [s] := by
  intro s
  induction s with
  | nil => intro _; rfl
  | cons c cs ih =>
    intro h
    have hc : c ≠ '/' := fun hcc => h (by simp [hcc])
    have hcs : '/' ∉ cs := fun hmem => h (List.mem_cons_of_mem c hmem)
    rw [splitSeg, if_neg hc, ih hcs]

theorem splitSeg_append_slash {s : List Char} (hs : '/' ∉ s) (rest : List Char) :
    splitSeg (s ++ '/' :: rest) = s :: splitSeg rest := by
  induction s with
  | nil =>
    show splitSeg ('/' :: rest) = [] :: splitSeg rest
    rw [splitSeg, if_pos rfl]
  | cons c cs ih =>
    have hc : c ≠ '/' := fun hcc => hs (by simp [hcc])
    have hcs : '/' ∉ cs := fun hmem => hs (List.mem_cons_of_mem c hmem)
    show splitSeg (c :: (cs ++ '/' :: rest)) = (c :: cs) :: splitSeg rest
    rw [splitSeg, if_neg hc, ih hcs]

theorem splitSeg_joinSegsChars : ∀ {L : List (List Char)}, L ≠ [] →
    (∀ l ∈ L, '/' ∉ l) → splitSeg (joinSegsChars L) = L := by
  intro L
  induction L with
  | nil => intro h _; exact absurd rfl h
  | cons s ss ih =>
    intro _ hL
    cases ss with
    | nil =>
      show splitSeg (joinSegsChars [s]) = [s]
      exact splitSeg_of_no_slash (hL s (List.mem_cons_self s []))
    | cons t ts =>
      rw [joinSegsChars_cons s (t :: ts) (by simp)]
      rw [splitSeg_append_slash (hL s (List.mem_cons_self s (t :: ts)))]
      rw [ih (by simp) (fun l hl => hL l (List.mem_cons_of_mem s hl))]

/-! ### Helper lemmas: the path normalization transform -/

theorem charOfNat_toNat {n : Nat} (h : n < 55296) : (Char.ofNat n).toNat = n := by
  rw [Char.ofNat, dif_pos (Or.inl h)]
  simp [Char.ofNatAux, Char.toNat, UInt32.toNat]

theorem lowerChar_spec (c : Char) :
    (isUpperChar c = false ∧ lowerChar c = c) ∨
    (isUpperChar c = true ∧ 97 ≤ (lowerChar c).toNat ∧ (lowerChar c).toNat ≤ 122) := by
  unfold isUpperChar lowerChar
  by_cases h : 65 ≤ c.toNat ∧ c.toNat ≤ 90
  · refine Or.inr ⟨by simp [h.1, h.2], ?_⟩
    rw [if_pos h, charOfNat_toNat (by omega)]
    omega
  · refine Or.inl ⟨by simpa using h, ?_⟩
    rw [if_neg h]

theorem mem_stripLeadingUnderscore {e : Char} : ∀ {l : List Char},
    e ∈ stripLeadingUnderscore l → e ∈ l := by
  intro l
  cases l with
  | nil => intro h; exact h
  | cons c cs =>
    intro h
    rw [stripLeadingUnderscore] at h
    by_cases hc : c = '_'
    · rw [if_pos hc] at h
      exact List.mem_cons_of_mem _ h
    · rwa [if_neg hc] at h

theorem mem_underscoreChars {e : Char} {seg : List Char} (h : e ∈ underscoreChars seg) :
    e = '_' ∨ (∃ c ∈ seg, isUpperChar c = true ∧ e = lowerChar c) ∨
      (∃ c ∈ seg, isUpperChar c = false ∧ e = c) := by
  unfold underscoreChars at h
  have h2 := mem_stripLeadingUnderscore h
  rcases List.mem_flatMap.mp h2 with ⟨c, hc, he⟩
  by_cases hu : isUpperChar c
  · rw [if_pos hu] at he
    rcases List.mem_cons.mp he with rfl | he
    · exact Or.inl rfl
    · have : e = lowerChar c := by simpa using he
      exact Or.inr (Or.inl ⟨c, hc, hu, this⟩)
  · rw [if_neg hu] at he
    have : e = c := by simpa using he
    exact Or.inr (Or.inr ⟨c, hc, by simpa using hu, this⟩)

theorem mem_dasherizeChars {e : Char} {l : List Char} (h : e ∈ dasherizeChars l) :
    e = '-' ∨ (e ∈ l ∧ e ≠ '_') := by
  unfold dasherizeChars at h
  rcases List.mem_map.mp h with ⟨c, hc, he⟩
  by_cases hu : c = '_'
  · rw [if_pos hu] at he
    exact Or.inl he.symm
  · rw [if_neg hu] at he
    subst he
    exact Or.inr ⟨hc, hu⟩

theorem transform_no_upper {e : Char} {seg : List Char}
    (h : e ∈ inflectionTransformChars seg) : isUpperChar e = false := by
  unfold inflectionTransformChars at h
  rcases mem_dasherizeChars h with rfl | ⟨he, _⟩
  · rfl
  · rcases mem_underscoreChars he with rfl | ⟨c, _, hu, rfl⟩ | ⟨c, _, hu, rfl⟩
    · rfl
    · rcases lowerChar_spec c with ⟨hne, _⟩ | ⟨_, h1, h2⟩
      · rw [hne] at hu
        exact absurd hu (by simp)
      · unfold isUpperChar
        simp only [decide_eq_false_iff_not]
        omega
    · exact hu

theorem transform_no_underscore {e : Char} {seg : List Char}
    (h : e ∈ inflectionTransformChars seg) : e ≠ '_' := by
  unfold inflectionTransformChars at h
  rcases mem_dasherizeChars h with rfl | ⟨_, hne⟩
  · decide
  · exact hne

theorem transform_not_mem {d : Char} (hd1 : d.toNat < 97 ∨ 122 < d.toNat)
    (hd2 : d ≠ '-') (hd3 : d ≠ '_') {seg : List Char} (hseg : d ∉ seg) :
    d ∉ inflectionTransformChars seg := by
  intro h
  unfold inflectionTransformChars at h
  rcases mem_dasherizeChars h with h1 | ⟨h1, _⟩
  · exact hd2 h1
  · rcases mem_underscoreChars h1 with h2 | ⟨c, hc, hu, h2⟩ | ⟨c, hc, _, h2⟩
    · exact hd3 h2
    · rcases lowerChar_spec c with ⟨hne, _⟩ | ⟨_, hl1, hl2⟩
      · rw [hne] at hu
        exact absurd hu (by simp)
      · rw [← h2] at hl1 hl2
        omega
    · subst h2
      exact hseg hc

theorem underscoreChars_of_plain {l : List Char}
    (h : ∀ c ∈ l, isUpperChar c = false ∧ c ≠ '_') : underscoreChars l = l := by
  unfold underscoreChars
  have hflat : (l.flatMap fun c => if isUpperChar c then ['_', lowerChar c] else [c]) = l := by
    induction l with
    | nil => rfl
    | cons c cs ih =>
      rw [List.flatMap_cons, if_neg (by simp [(h c (List.mem_cons_self c cs)).1]),
        ih (fun d hd => h d (List.mem_cons_of_mem c hd))]
      rfl
  rw [hflat]
  cases l with
  | nil => rfl
  | cons c cs =>
    rw [stripLeadingUnderscore, if_neg (h c (List.mem_cons_self c cs)).2]

theorem dasherizeChars_of_plain {l : List Char} (h : ∀ c ∈ l, c ≠ '_') :
    dasherizeChars l = l := by
  unfold dasherizeChars
  induction l with
  | nil => rfl
  | cons c cs ih =>
    rw [List.map_cons, if_neg (h c (List.mem_cons_self c cs)),
      ih (fun d hd => h d (List.mem_cons_of_mem c hd))]

theorem transform_idem (seg : List Char) :
    inflectionTransformChars (inflectionTransformChars seg) =
      inflectionTransformChars seg := by
  show dasherizeChars (underscoreChars (inflectionTransformChars seg)) = _
  rw [underscoreChars_of_plain
    (fun c hc => ⟨transform_no_upper hc, transform_no_underscore hc⟩)]
  exact dasherizeChars_of_plain fun c hc => transform_no_underscore hc

theorem normSegChars_idem (seg : List Char) :
    normSegChars (normSegChars seg) = normSegChars seg := by
  unfold normSegChars
  by_cases h : ':' ∈ seg
  · rw [if_pos h, if_pos h]
  · rw [if_neg h, if_neg (transform_not_mem (by decide) (by decide) (by decide) h),
      transform_idem]

theorem normSegChars_no_slash {seg : List Char} (h : '/' ∉ seg) :
    '/' ∉ normSegChars seg := by
  unfold normSegChars
  split
  · exact h
  · exact transform_not_mem (by decide) (by decide) (by decide) h

theorem normSegChars_of_colon {seg : List Char} (h : ':' ∈ seg) :
    normSegChars seg = seg := by
  unfold normSegChars
  rw [if_pos h]

theorem splitSeg_normalizeHttpPathStr (p : String) :
    splitSeg (normalizeHttpPathStr p).data = (splitSeg p.data).map normSegChars := by
  show splitSeg (joinSegsChars ((splitSeg p.data).map normSegChars)) = _
  apply splitSeg_joinSegsChars
  · simp [splitSeg_ne_nil p.data]
  · intro l hl
    rcases List.mem_map.mp hl with ⟨seg, hseg, rfl⟩
    exact normSegChars_no_slash (splitSeg_no_slash p.data seg hseg)

theorem normSegChars_comp :
    normSegChars ∘ normSegChars = normSegChars := by
  funext seg
  exact normSegChars_idem seg

theorem normalizeHttpPathStr_idem (p : String) :
    normalizeHttpPathStr (normalizeHttpPathStr p) = normalizeHttpPathStr p := by
  show (⟨joinSegsChars ((splitSeg (normalizeHttpPathStr p).data).map normSegChars)⟩ : String) = _
  rw [splitSeg_normalizeHttpPathStr, List.map_map, normSegChars_comp]
  rfl

/-! ### Helper lemmas: the route comparator -/

theorem sortRoutes_def (r1 r2 : RouteEntry) :
    sortRoutes r1 r2 =
      match lexCmp (normVerb r1.route.verb).data (normVerb r2.route.verb).data with
      | .gt => -1
      | .lt => 1
      | .eq => segLoop (splitSeg r1.route.path.data) (splitSeg r2.route.path.data) := rfl

theorem sortRoutes_cases (r1 r2 : RouteEntry) :
    (sortRoutesO r1.route r2.route = .lt ∧ sortRoutes r1 r2 < 0) ∨
    (sortRoutesO r1.route r2.route = .eq ∧ sortRoutes r1 r2 = 0) ∨
    (sortRoutesO r1.route r2.route = .gt ∧ 0 < sortRoutes r1 r2) := by
  rw [sortRoutes_def]
  unfold sortRoutesO
  cases h : lexCmp (normVerb r1.route.verb).data (normVerb r2.route.verb).data with
  | gt =>
    have h2 : lexCmp (normVerb r2.route.verb).data (normVerb r1.route.verb).data = .lt := by
      rw [← lexCmp_swap, h]
      rfl
    refine Or.inl ⟨?_, by norm_num⟩
    rw [h2]
    rfl
  | lt =>
    have h2 : lexCmp (normVerb r2.route.verb).data (normVerb r1.route.verb).data = .gt := by
      rw [← lexCmp_swap, h]
      rfl
    refine Or.inr (Or.inr ⟨?_, by norm_num⟩)
    rw [h2]
    rfl
  | eq =>
    have h2 : lexCmp (normVerb r2.route.verb).data (normVerb r1.route.verb).data = .eq := by
      rw [← lexCmp_swap, h]
      rfl
    rcases segLoop_cases (splitSeg r1.route.path.data) (splitSeg r2.route.path.data) with
      ⟨hO, hI⟩ | ⟨hO, hI⟩ | ⟨hO, hI⟩
    · exact Or.inl ⟨by rw [h2, hO]; rfl, hI⟩
    · exact Or.inr (Or.inl ⟨by rw [h2, hO]; rfl, hI⟩)
    · exact Or.inr (Or.inr ⟨by rw [h2, hO]; rfl, hI⟩)

theorem strData_inj {s t : String} (h : s.data = t.data) : s = t := by
  cases s with
  | mk d1 =>
    cases t with
    | mk d2 =>
      have h2 : d1 = d2 := h
      rw [h2]

theorem sortRoutesO_eq_eq {a b : Route} :
    sortRoutesO a b = .eq ↔ normVerb a.verb = normVerb b.verb ∧ a.path = b.path := by
  unfold sortRoutesO
  rw [Ordering.then_eq_eq, lexCmp_eq_eq, segListCmpO_eq_eq]
  constructor
  · rintro ⟨h1, h2⟩
    exact ⟨(strData_inj h1).symm, strData_inj (splitSeg_inj h2)⟩
  · rintro ⟨h1, h2⟩
    rw [h1, h2]
    exact ⟨rfl, rfl⟩

theorem sortRoutesO_swap (a b : Route) : (sortRoutesO a b).swap = sortRoutesO b a := by
  unfold sortRoutesO
  rw [Ordering.swap_then, lexCmp_swap, segListCmpO_swap]

theorem sortRoutesO_congr_right (a : Route) {b b2 : Route}
    (hv : normVerb b.verb = normVerb b2.verb) (hp : b.path = b2.path) :
    sortRoutesO a b = sortRoutesO a b2 := by
  unfold sortRoutesO
  rw [hv, hp]

theorem sortRoutesO_congr_left {a a2 : Route} (b : Route)
    (hv : normVerb a.verb = normVerb a2.verb) (hp : a.path = a2.path) :
    sortRoutesO a b = sortRoutesO a2 b := by
  unfold sortRoutesO
  rw [hv, hp]

theorem sortRoutesO_lt_trans {a b c : Route} (h1 : sortRoutesO a b = .lt)
    (h2 : sortRoutesO b c = .lt) : sortRoutesO a c = .lt := by
  unfold sortRoutesO at h1 h2 ⊢
  rw [Ordering.then_eq_lt] at h1 h2 ⊢
  rcases h1 with h1 | ⟨e1, l1⟩ <;> rcases h2 with h2 | ⟨e2, l2⟩
  · exact Or.inl (lexCmp_lt_trans h2 h1)
  · rw [lexCmp_eq_eq] at e2
    rw [e2]
    exact Or.inl h1
  · rw [lexCmp_eq_eq] at e1
    rw [← e1]
    exact Or.inl h2
  · rw [lexCmp_eq_eq] at e1 e2
    refine Or.inr ⟨by rw [lexCmp_eq_eq]; exact e2.trans e1, segListCmpO_lt_trans l1 l2⟩

theorem sortRoutesO_ne_gt_trans {a b c : Route} (h1 : sortRoutesO a b ≠ .gt)
    (h2 : sortRoutesO b c ≠ .gt) : sortRoutesO a c ≠ .gt := by
  cases ho1 : sortRoutesO a b with
  | gt => exact absurd ho1 h1
  | lt =>
    cases ho2 : sortRoutesO b c with
    | gt => exact absurd ho2 h2
    | lt =>
      rw [sortRoutesO_lt_trans ho1 ho2]
      simp
    | eq =>
      rcases sortRoutesO_eq_eq.mp ho2 with ⟨hv, hp⟩
      have hcongr := sortRoutesO_congr_right a hv hp
      rw [← hcongr, ho1]
      simp
  | eq =>
    cases ho2 : sortRoutesO b c with
    | gt => exact absurd ho2 h2
    | lt =>
      rcases sortRoutesO_eq_eq.mp ho1 with ⟨hv, hp⟩
      have hcongr := sortRoutesO_congr_left c hv hp
      rw [hcongr, ho2]
      simp
    | eq =>
      rcases sortRoutesO_eq_eq.mp ho1 with ⟨hv, hp⟩
      have hcongr := sortRoutesO_congr_left c hv hp
      rw [hcongr, ho2]
      simp

theorem sortRoutes_lt_iff (r1 r2 : RouteEntry) :
    sortRoutes r1 r2 < 0 ↔ sortRoutesO r1.route r2.route = .lt := by
  rcases sortRoutes_cases r1 r2 with ⟨hO, hI⟩ | ⟨hO, hI⟩ | ⟨hO, hI⟩
  · exact ⟨fun _ => hO, fun _ => hI⟩
  · refine ⟨fun h => by omega, fun h => ?_⟩
    rw [hO] at h
    simp at h
  · refine ⟨fun h => by omega, fun h => ?_⟩
    rw [hO] at h
    simp at h

theorem sortRoutes_pos_iff (r1 r2 : RouteEntry) :
    0 < sortRoutes r1 r2 ↔ sortRoutesO r1.route r2.route = .gt := by
  rcases sortRoutes_cases r1 r2 with ⟨hO, hI⟩ | ⟨hO, hI⟩ | ⟨hO, hI⟩
  · refine ⟨fun h => by omega, fun h => ?_⟩
    rw [hO] at h
    simp at h
  · refine ⟨fun h => by omega, fun h => ?_⟩
    rw [hO] at h
    simp at h
  · exact ⟨fun _ => hO, fun _ => hI⟩

theorem sortRoutes_zero_iff_O (r1 r2 : RouteEntry) :
    sortRoutes r1 r2 = 0 ↔ sortRoutesO r1.route r2.route = .eq := by
  rcases sortRoutes_cases r1 r2 with ⟨hO, hI⟩ | ⟨hO, hI⟩ | ⟨hO, hI⟩
  · refine ⟨fun h => by omega, fun h => ?_⟩
    rw [hO] at h
    simp at h
  · exact ⟨fun _ => hO, fun _ => hI⟩
  · refine ⟨fun h => by omega, fun h => ?_⟩
    rw [hO] at h
    simp at h

theorem sortRoutes_le_iff (r1 r2 : RouteEntry) :
    sortRoutes r1 r2 ≤ 0 ↔ sortRoutesO r1.route r2.route ≠ .gt := by
  rcases sortRoutes_cases r1 r2 with ⟨hO, hI⟩ | ⟨hO, hI⟩ | ⟨hO, hI⟩
  · refine ⟨fun _ => ?_, fun _ => by omega⟩
    rw [hO]
    simp
  · refine ⟨fun _ => ?_, fun _ => by omega⟩
    rw [hO]
    simp
  · exact ⟨fun h => by omega, fun h => absurd hO h⟩

theorem sortRoutes_neg (r1 r2 : RouteEntry) : sortRoutes r1 r2 = - sortRoutes r2 r1 := by
  rw [sortRoutes_def, sortRoutes_def]
  cases h : lexCmp (normVerb r1.route.verb).data (normVerb r2.route.verb).data with
  | gt =>
    have h2 : lexCmp (normVerb r2.route.verb).data (normVerb r1.route.verb).data = .lt := by
      rw [← lexCmp_swap, h]
      rfl
    rw [h2]
  | lt =>
    have h2 : lexCmp (normVerb r2.route.verb).data (normVerb r1.route.verb).data = .gt := by
      rw [← lexCmp_swap, h]
      rfl
    rw [h2]
    show (1 : Int) = -(-1 : Int)
    decide
  | eq =>
    have h2 : lexCmp (normVerb r2.route.verb).data (normVerb r1.route.verb).data = .eq := by
      rw [← lexCmp_swap, h]
      rfl
    rw [h2]
    exact segLoop_neg _ _

theorem sortRoutes_le_trans {r1 r2 r3 : RouteEntry} (h1 : sortRoutes r1 r2 ≤ 0)
    (h2 : sortRoutes r2 r3 ≤ 0) : sortRoutes r1 r3 ≤ 0 := by
  rw [sortRoutes_le_iff] at h1 h2 ⊢
  exact sortRoutesO_ne_gt_trans h1 h2

theorem sortRoutes_le_total (r1 r2 : RouteEntry) :
    sortRoutes r1 r2 ≤ 0 ∨ sortRoutes r2 r1 ≤ 0 := by
  rcases le_or_lt (sortRoutes r1 r2) 0 with h | h
  · exact Or.inl h
  · right
    rw [sortRoutes_neg r2 r1]
    omega

theorem sortRoutesList_idem (l : List RouteEntry) :
    sortRoutesList (sortRoutesList l) = sortRoutesList l := by
  unfold sortRoutesList
  apply List.mergeSort_of_sorted
  apply List.sorted_mergeSort
  · intro a b c hab hbc
    simp only [decide_eq_true_eq] at hab hbc ⊢
    exact sortRoutes_le_trans hab hbc
  · intro a b
    simp only [Bool.or_eq_true, decide_eq_true_eq]
    exact sortRoutes_le_total a b

/-! ### Helper lemmas: the claim-side comparator coincides with the source -/

theorem natCmp_succ (a b : Nat) : natCmp (a + 1) (b + 1) = natCmp a b := by
  unfold natCmp
  rcases Nat.lt_trichotomy a b with h | h | h
  · rw [if_pos (by omega), if_pos h]
  · subst h
    rw [if_neg (by omega), if_pos rfl, if_neg (by omega), if_pos rfl]
  · rw [if_neg (by omega), if_neg (by omega), if_neg (by omega), if_neg (by omega)]

theorem orderingThen_assoc (o1 o2 o3 : Ordering) :
    (o1.then o2).then o3 = o1.then (o2.then o3) := by
  cases o1 <;> rfl

theorem claimSegRank_eq_segOrd (s t : List Char) : claimSegRank s t = segOrd s t := by
  rcases s with _ | ⟨c, cs⟩ <;> rcases t with _ | ⟨d, ds⟩
  · rfl
  · by_cases wd : d = ':' <;> simp [claimSegRank, segOrd, isWild, wd]
  · by_cases wc : c = ':' <;> simp [claimSegRank, segOrd, isWild, wc]
  · by_cases wc : c = ':' <;> by_cases wd : d = ':' <;>
      simp [claimSegRank, segOrd, isWild, wc, wd]

theorem claimPath_eq : ∀ (ss ts : List (List Char)),
    (firstVerdict (List.zipWith claimSegRank ss ts)).then (natCmp ts.length ss.length) =
      segListCmpO ss ts := by
  intro ss
  induction ss with
  | nil =>
    intro ts
    cases ts with
    | nil => rfl
    | cons t ts =>
      show Ordering.eq.then (natCmp (t :: ts).length 0) = .gt
      have : natCmp (t :: ts).length 0 = .gt := natCmp_eq_gt.mpr (Nat.succ_pos ts.length)
      rw [this]
      rfl
  | cons s ss ih =>
    intro ts
    cases ts with
    | nil =>
      show Ordering.eq.then (natCmp 0 (s :: ss).length) = .lt
      have : natCmp 0 (s :: ss).length = .lt := natCmp_eq_lt.mpr (Nat.succ_pos ss.length)
      rw [this]
      rfl
    | cons t ts =>
      show ((claimSegRank s t).then (firstVerdict (List.zipWith claimSegRank ss ts))).then
          (natCmp (t :: ts).length (s :: ss).length) =
        (segOrd s t).then (segListCmpO ss ts)
      rw [List.length_cons, List.length_cons, natCmp_succ, orderingThen_assoc,
        claimSegRank_eq_segOrd, ih]

theorem claimRouteCmp_eq_sortRoutesO (a b : Route) : claimRouteCmp a b = sortRoutesO a b := by
  show (lexCmp (normVerb b.verb).data (normVerb a.verb).data).then
      ((firstVerdict (List.zipWith claimSegRank (splitSeg a.path.data) (splitSeg b.path.data))).then
        (natCmp (splitSeg b.path.data).length (splitSeg a.path.data).length)) =
    sortRoutesO a b
  unfold sortRoutesO
  rw [claimPath_eq]

/-! ### Claim theorems -/

/-- C1: `sortRoutes` applies the claimed rules in sequence: verbs (lowercased,
`del` normalized to `delete`) compared lexicographically descending; then the
paths split on `'/'` and compared segment by segment up to the shorter length
(empty after non-empty, placeholder after literal, otherwise lexicographic
ascending); if all compared segments tie, the route with more segments ranks
first.  The sign of `sortRoutes` coincides with the claim-side comparator
`claimRouteCmp` on every pair of routes, and in particular
`PUT /x` ranks before `GET /x` and `GET /widgets/count` ranks before
`GET /widgets/:id`. -/
theorem sortRoutes_applies_claimed_rules :
    (∀ r1 r2 : RouteEntry,
      (sortRoutes r1 r2 < 0 ↔ claimRouteCmp r1.route r2.route = .lt) ∧
      (sortRoutes r1 r2 = 0 ↔ claimRouteCmp r1.route r2.route = .eq) ∧
      (0 < sortRoutes r1 r2 ↔ claimRouteCmp r1.route r2.route = .gt)) ∧
    sortRoutes ⟨⟨"PUT", "/x"⟩⟩ ⟨⟨"GET", "/x"⟩⟩ = -1 ∧
    sortRoutes ⟨⟨"GET", "/widgets/count"⟩⟩ ⟨⟨"GET", "/widgets/:id"⟩⟩ = -1 := by
  refine ⟨fun r1 r2 => ?_, by decide, by decide⟩
  rw [claimRouteCmp_eq_sortRoutesO]
  exact ⟨sortRoutes_lt_iff r1 r2, sortRoutes_zero_iff_O r1 r2, sortRoutes_pos_iff r1 r2⟩

/-- C2 counterexample: `sortRoutes` returns `0` on two routes that are not
equal — the verbs `"DEL"` and `"delete"` differ as strings but normalize to
the same verb, so "`sortRoutes(a,b) == 0` only when the two routes are equal"
fails. -/
theorem sortRoutes_zero_not_inj :
    sortRoutes ⟨⟨"DEL", "/x"⟩⟩ ⟨⟨"delete", "/x"⟩⟩ = 0 ∧
      (⟨⟨"DEL", "/x"⟩⟩ : RouteEntry) ≠ ⟨⟨"delete", "/x"⟩⟩ := by
  decide

/-- C2 (amended): `sortRoutes` is an exact antisymmetric comparator
(`sortRoutes a b = -sortRoutes b a`, so nonzero values have opposite signs),
`sortRoutes a b = 0` exactly when the normalized verbs coincide and the paths
are equal (the routes may still differ in verb spelling), the induced
non-strict order is transitive, and stable sorting with it twice yields the
identical list. -/
theorem sortRoutes_total_preorder :
    (∀ a b : RouteEntry, sortRoutes a b = - sortRoutes b a) ∧
    (∀ a b : RouteEntry, sortRoutes a b = 0 ↔
      normVerb a.route.verb = normVerb b.route.verb ∧ a.route.path = b.route.path) ∧
    (∀ a b c : RouteEntry, sortRoutes a b ≤ 0 → sortRoutes b c ≤ 0 → sortRoutes a c ≤ 0) ∧
    (∀ l : List RouteEntry, sortRoutesList (sortRoutesList l) = sortRoutesList l) := by
  refine ⟨sortRoutes_neg, fun a b => ?_, fun a b c => sortRoutes_le_trans, sortRoutesList_idem⟩
  rw [sortRoutes_zero_iff_O, sortRoutesO_eq_eq]

/-- C2 witness: transitivity applied at concrete routes. -/
theorem sortRoutes_total_preorder_witness :
    sortRoutes ⟨⟨"GET", "/a"⟩⟩ ⟨⟨"GET", "/c"⟩⟩ ≤ 0 :=
  sortRoutes_total_preorder.2.2.1 ⟨⟨"GET", "/a"⟩⟩ ⟨⟨"GET", "/b"⟩⟩ ⟨⟨"GET", "/c"⟩⟩
    (by decide) (by decide)

/-- C3 counterexample: `joinPaths('', '/')` is `'/'`, not the prefix `''` —
the empty-prefix rule fires before the `'/'`-suffix rule, so
"`joinPaths(p, '/') == p` for every prefix `p`" fails at `p = ""`. -/
theorem joinPaths_empty_slash : joinPaths "" "/" = "/" ∧ ("/" : String) ≠ "" := by
  decide

/-- C3 (amended): the boundary contract of `joinPaths`, with the `'/'`-suffix
rule restricted to nonempty prefixes (for `p = ""` the empty-prefix rule wins
and the result is the suffix `"/"`): `joinPaths("", s) = s`;
`joinPaths(p, "") = p`; `joinPaths(p, "/") = p` for `p ≠ ""`; and for
`p ≠ ""` and `s ∉ {"", "/"}`: both sides slashed → the doubled slash
collapses to one; exactly one side slashed → plain concatenation; neither
side slashed → one `'/'` inserted.  In particular
`joinPaths("/a", "/b") = "/a/b"` and `joinPaths("/a/", "/b") = "/a/b"`. -/
theorem joinPaths_boundary :
    (∀ s, joinPaths "" s = s) ∧
    (∀ p, joinPaths p "" = p) ∧
    (∀ p, p ≠ "" → joinPaths p "/" = p) ∧
    (∀ p s, p ≠ "" → s ≠ "" → s ≠ "/" →
      ((p.data.getLast? = some '/' ∧ s.data.head? = some '/') →
          joinPaths p s = ⟨p.data ++ s.data.tail⟩) ∧
      ((p.data.getLast? = some '/' ↔ ¬ s.data.head? = some '/') →
          joinPaths p s = ⟨p.data ++ s.data⟩) ∧
      ((¬ p.data.getLast? = some '/' ∧ ¬ s.data.head? = some '/') →
          joinPaths p s = ⟨p.data ++ '/' :: s.data⟩)) ∧
    joinPaths "/a" "/b" = "/a/b" ∧ joinPaths "/a/" "/b" = "/a/b" := by
  refine ⟨fun s => rfl, fun p => ?_, fun p hp => ?_, fun p s hp hs1 hs2 => ?_,
    by decide, by decide⟩
  · unfold joinPaths
    by_cases hp : p = ""
    · rw [if_pos hp, hp]
    · rw [if_neg hp, if_pos (Or.inl rfl)]
  · unfold joinPaths
    rw [if_neg hp, if_pos (Or.inr rfl)]
  · have hsor : ¬ (s = "" ∨ s = "/") := by
      rintro (h | h)
      · exact hs1 h
      · exact hs2 h
    refine ⟨fun hb => ?_, fun hx => ?_, fun hn => ?_⟩
    · unfold joinPaths
      rw [if_neg hp, if_neg hsor, if_pos hb]
    · unfold joinPaths
      by_cases hl : p.data.getLast? = some '/'
      · have hr : ¬ s.data.head? = some '/' := hx.mp hl
        rw [if_neg hp, if_neg hsor, if_neg (fun hb => hr hb.2), if_pos (Or.inl hl)]
      · have hr : s.data.head? = some '/' := by
          by_contra hr
          exact hl (hx.mpr hr)
        rw [if_neg hp, if_neg hsor, if_neg (fun hb => hl hb.1), if_pos (Or.inr hr)]
    · unfold joinPaths
      rw [if_neg hp, if_neg hsor, if_neg (fun hb => hn.1 hb.1),
        if_neg (fun hb => Or.elim hb hn.1 hn.2)]

/-- C3 witness: the `'/'`-suffix rule applied at the nonempty prefix `"/a"`. -/
theorem joinPaths_boundary_witness : joinPaths "/a" "/" = "/a" :=
  joinPaths_boundary.2.2.1 "/a" (by decide)

/-- C4: path normalization is idempotent; the normalized path's segments are
exactly the segment-wise image of the original's segments, and a segment
containing the placeholder marker `':'` is passed through unchanged; the
disabled transform `untransformedPath` is the identity. -/
theorem normalizeHttpPath_idem_and_placeholders :
    (∀ p : String, normalizeHttpPathStr (normalizeHttpPathStr p) = normalizeHttpPathStr p) ∧
    (∀ p : String, splitSeg (normalizeHttpPathStr p).data = (splitSeg p.data).map normSegChars) ∧
    (∀ seg : List Char, ':' ∈ seg → normSegChars seg = seg) ∧
    (∀ p : String, untransformedPath p = p) := by
  exact ⟨normalizeHttpPathStr_idem, splitSeg_normalizeHttpPathStr,
    fun seg h => normSegChars_of_colon h, fun p => rfl⟩

/-- C4 witness: a placeholder segment is left untouched. -/
theorem normalizeHttpPath_idem_witness :
    normSegChars [':', 'i', 'd'] = [':', 'i', 'd'] :=
  normalizeHttpPath_idem_and_placeholders.2.2.1 [':', 'i', 'd'] (by decide)

/-- C5: default route derivation by `getRoutes`.  With no declared routes the
shared constructor (`name = "sharedCtor"`) gets exactly the one route
`all /prototype` (a literal, not normalized); any other named entity gets
exactly the one route `all` with path `toPath('/' + name)`; a nameless entity
gets the empty-string path.  Declared routes are patched in place: a missing
verb defaults to `"all"` (stored lowercased), a missing path defaults to
`'/' + name` passed through the normalizer selected by the class-level
option, which falls back to the adapter-wide option when undefined. -/
theorem getRoutes_default_derivation :
    ∀ (e : Entity) (opts : AdapterOptions),
      (e.http = none → e.name = "sharedCtor" →
        getRoutes e opts = [{ verb := "all", path := "/prototype" }]) ∧
      (e.http = none → e.name ≠ "sharedCtor" → e.name ≠ "" →
        getRoutes e opts = [{ verb := "all", path := selectToPath e opts ("/" ++ e.name) }]) ∧
      (e.http = none → e.name ≠ "sharedCtor" → e.name = "" →
        getRoutes e opts = [{ verb := "all", path := "" }]) ∧
      (∀ rs, e.http = some rs →
        getRoutes e opts = rs.map (patchDeclaredRoute (selectToPath e opts) e.name)) ∧
      (∀ r : DeclRoute, r.verb = none →
        (patchDeclaredRoute (selectToPath e opts) e.name r).verb = "all") ∧
      (∀ r : DeclRoute, r.path = none →
        (patchDeclaredRoute (selectToPath e opts) e.name r).path =
          selectToPath e opts ("/" ++ e.name)) ∧
      (∀ b, e.classNormalize = some b →
        selectToPath e opts = if b then normalizeHttpPathStr else untransformedPath) ∧
      (e.classNormalize = none →
        selectToPath e opts =
          if opts.normalizeHttpPath then normalizeHttpPathStr else untransformedPath) := by
  intro e opts
  refine ⟨fun h1 h2 => ?_, fun h1 h2 h3 => ?_, fun h1 h2 h3 => ?_, fun rs h => ?_,
    fun r hv => ?_, fun r hp => ?_, fun b hb => ?_, fun hb => ?_⟩
  · simp only [getRoutes]
    rw [h1, if_pos h2]
  · simp only [getRoutes]
    rw [h1, if_neg h2, if_neg h3]
  · simp only [getRoutes]
    rw [h1, if_neg h2, if_pos h3]
  · simp only [getRoutes]
    rw [h]
  · simp only [patchDeclaredRoute]
    rw [hv]
    decide
  · simp only [patchDeclaredRoute]
    rw [hp]
  · simp only [selectToPath]
    rw [hb]
  · simp only [selectToPath]
    rw [hb]

/-- C5 witness: the default route of an entity named `Widget`. -/
theorem getRoutes_default_derivation_witness :
    getRoutes ⟨"Widget", none, none⟩ ⟨false⟩ =
      [{ verb := "all",
         path := selectToPath ⟨"Widget", none, none⟩ ⟨false⟩ ("/" ++ "Widget") }] :=
  (getRoutes_default_derivation ⟨"Widget", none, none⟩ ⟨false⟩).2.1 rfl
    (by decide) (by decide)

/-- C6 counterexample: a method that declares an explicitly empty `http`
array yields an empty route list, so "every method yields a non-empty route
list" fails. -/
theorem restMethodRoutes_empty_of_empty_http :
    restMethodRoutes ⟨false⟩ none ⟨⟨"m", some [], none⟩, true⟩ = [] := by
  decide

/-- C6 (amended): a method whose declared `http` list is absent derives a
non-empty route list; a static method (or a method of a class without a
shared constructor) keeps its own route list unchanged; for a prototype
method of a class with a constructor the routes are non-empty whenever both
the method's routes and the constructor's routes are, and every derived route
is `joinPaths(c.path, mr.path)` for some constructor route `c` and method
route `mr` (with the verb of `mr`) — the cross product. -/
theorem restMethodRoutes_nonempty_and_cross :
    ∀ (opts : AdapterOptions) (m : MethodEnt),
      (m.ent.http = none → getRoutes m.ent opts ≠ []) ∧
      (∀ ctorRoutes, m.isStatic = true ∨ ctorRoutes = none →
        restMethodRoutes opts ctorRoutes m = getRoutes m.ent opts) ∧
      (∀ crs, m.isStatic = false → getRoutes m.ent opts ≠ [] → crs ≠ [] →
        restMethodRoutes opts (some crs) m ≠ []) ∧
      (∀ crs, m.isStatic = false →
        ∀ r ∈ restMethodRoutes opts (some crs) m,
          ∃ c ∈ crs, ∃ mr ∈ getRoutes m.ent opts,
            r.path = joinPaths c.path mr.path ∧ r.verb = mr.verb) := by
  intro opts m
  refine ⟨fun h => ?_, fun ctorRoutes hd => ?_, fun crs hs hm hc => ?_, fun crs hs r hr => ?_⟩
  · simp only [getRoutes, h]
    split <;> simp
  · rcases hd with hs | hn
    · simp only [restMethodRoutes]
      rw [hs]
    · subst hn
      cases hs : m.isStatic <;> simp only [restMethodRoutes, hs]
  · simp only [restMethodRoutes, hs]
    rcases hmr : getRoutes m.ent opts with _ | ⟨r0, rest⟩
    · exact absurd hmr hm
    · rcases crs with _ | ⟨c0, crest⟩
      · exact absurd rfl hc
      · simp [List.flatMap_cons]
  · simp only [restMethodRoutes, hs] at hr
    rcases List.mem_flatMap.mp hr with ⟨route, hroute, hmem⟩
    rcases List.mem_map.mp hmem with ⟨ctorRoute, hctor, heq⟩
    refine ⟨ctorRoute, hctor, route, hroute, ?_, ?_⟩
    · rw [← heq]
    · rw [← heq]

/-- C6 witness: a prototype method with the conventional constructor route
derives a non-empty route list. -/
theorem restMethodRoutes_nonempty_and_cross_witness :
    restMethodRoutes ⟨false⟩ (some [{ verb := "all", path := "/prototype" }])
      ⟨⟨"count", none, none⟩, false⟩ ≠ [] :=
  (restMethodRoutes_nonempty_and_cross ⟨false⟩ ⟨⟨"count", none, none⟩, false⟩).2.2.1
    [{ verb := "all", path := "/prototype" }] rfl (by decide) (by decide)

/-- C7: disabled-method masking and lazy rebuild in `getRestMethodByName`.
Any returned method passes the live enabled check; a cache hit on a disabled
method resolves to `none` without any explicit invalidation; when the lookup
misses the cache (or no cache exists yet) the cache is replaced by one fresh
rebuild from the current classes and the result is the enabled-filtered
lookup in that rebuilt cache; a cache hit does not rebuild. -/
theorem getRestMethodByName_masking_and_rebuild :
    ∀ (enabled : RestMethodM → Bool) (classes : List (List RestMethodM))
      (cache : Option (List RestMethodM)) (name : String),
      (∀ m, (getRestMethodByName enabled classes cache name).1 = some m →
        enabled m = true) ∧
      (∀ c m, cache = some c → cacheLookup c name = some m → enabled m = false →
        (getRestMethodByName enabled classes cache name).1 = none) ∧
      ((cache = none ∨ ∃ c, cache = some c ∧ cacheLookup c name = none) →
        (getRestMethodByName enabled classes cache name).2 =
            some (_createRestMethodByNameCache classes) ∧
        (getRestMethodByName enabled classes cache name).1 =
          maskEnabled enabled (cacheLookup (_createRestMethodByNameCache classes) name)) ∧
      (∀ c m, cache = some c → cacheLookup c name = some m →
        (getRestMethodByName enabled classes cache name).2 = some c) := by
  intro enabled classes cache name
  have hmask : ∀ (o : Option RestMethodM) (m : RestMethodM),
      maskEnabled enabled o = some m → enabled m = true := by
    intro o m hm
    rcases o with _ | r
    · cases hm
    · by_cases he : enabled r
      · rw [maskEnabled, if_pos he] at hm
        rw [Option.some.injEq] at hm
        rw [← hm]
        exact he
      · rw [maskEnabled, if_neg he] at hm
        cases hm
  cases cache with
  | none =>
    have heval : getRestMethodByName enabled classes none name =
        (maskEnabled enabled (cacheLookup (_createRestMethodByNameCache classes) name),
          some (_createRestMethodByNameCache classes)) := rfl
    refine ⟨?_, ?_, ?_, ?_⟩
    · intro m hm
      rw [heval] at hm
      have hm2 : maskEnabled enabled
          (cacheLookup (_createRestMethodByNameCache classes) name) = some m := hm
      exact hmask _ m hm2
    · intro c m hc
      cases hc
    · intro _
      rw [heval]
      exact ⟨rfl, rfl⟩
    · intro c m hc
      cases hc
  | some c0 =>
    rcases hl : cacheLookup c0 name with _ | r
    · have heval : getRestMethodByName enabled classes (some c0) name =
          (maskEnabled enabled (cacheLookup (_createRestMethodByNameCache classes) name),
            some (_createRestMethodByNameCache classes)) := by
        simp [getRestMethodByName, hl]
      refine ⟨?_, ?_, ?_, ?_⟩
      · intro m hm
        rw [heval] at hm
        have hm2 : maskEnabled enabled
            (cacheLookup (_createRestMethodByNameCache classes) name) = some m := hm
        exact hmask _ m hm2
      · intro c m hc hl2
        rw [Option.some.injEq] at hc
        subst hc
        rw [hl] at hl2
        cases hl2
      · intro _
        rw [heval]
        exact ⟨rfl, rfl⟩
      · intro c m hc hl2
        rw [Option.some.injEq] at hc
        subst hc
        rw [hl] at hl2
        cases hl2
    · have heval : getRestMethodByName enabled classes (some c0) name =
          (maskEnabled enabled (some r), some c0) := by
        simp [getRestMethodByName, hl]
      refine ⟨?_, ?_, ?_, ?_⟩
      · intro m hm
        rw [heval] at hm
        have hm2 : maskEnabled enabled (some r) = some m := hm
        exact hmask _ m hm2
      · intro c m hc hl2 he
        rw [Option.some.injEq] at hc
        subst hc
        rw [hl, Option.some.injEq] at hl2
        rw [← hl2] at he
        rw [heval]
        show maskEnabled enabled (some r) = none
        rw [maskEnabled, if_neg (by rw [he]; exact Bool.false_ne_true)]
      · intro hmiss
        rcases hmiss with hc | ⟨c, hc, hl2⟩
        · cases hc
        · rw [Option.some.injEq] at hc
          subst hc
          rw [hl] at hl2
          cases hl2
      · intro c m hc hl2
        rw [Option.some.injEq] at hc
        subst hc
        rw [heval]

/-- C7 witness: a cached method that the live check reports disabled resolves
to `none`. -/
theorem getRestMethodByName_masking_witness :
    (getRestMethodByName (fun _ => false) [[⟨"Widget.find", 0⟩]]
      (some [⟨"Widget.find", 0⟩]) "Widget.find").1 = none :=
  (getRestMethodByName_masking_and_rebuild (fun _ => false) [[⟨"Widget.find", 0⟩]]
    (some [⟨"Widget.find", 0⟩]) "Widget.find").2.1 [⟨"Widget.find", 0⟩]
    ⟨"Widget.find", 0⟩ rfl (by decide) rfl

/-- C8: the prototype-method handler defers a shared-constructor error: on
failure the error is stored in `ctx.sharedCtorError`, no instance is set, and
`_invokeMethod`'s step sequence (before hook, `invokeMethodInContext`, after
hook) is still entered; on success the instance is stored and
`sharedCtorError` stays unset, entering the same sequence. -/
theorem prototypeHandler_defers_ctor_error :
    ∀ (E I : Type) (e : E) (i : I) (hasBefore hasAfter : Bool),
      (restPrototypeMethodHandler (CtorOutcome.failure e : CtorOutcome E I)
          hasBefore hasAfter).1.sharedCtorError = some e ∧
      (restPrototypeMethodHandler (CtorOutcome.failure e : CtorOutcome E I)
          hasBefore hasAfter).1.inst = none ∧
      (restPrototypeMethodHandler (CtorOutcome.failure e : CtorOutcome E I)
          hasBefore hasAfter).2 = _invokeMethodSteps hasBefore hasAfter ∧
      PipeStep.invokeInContext ∈
        (restPrototypeMethodHandler (CtorOutcome.failure e : CtorOutcome E I)
          hasBefore hasAfter).2 ∧
      (restPrototypeMethodHandler (CtorOutcome.success i : CtorOutcome E I)
          hasBefore hasAfter).1.inst = some i ∧
      (restPrototypeMethodHandler (CtorOutcome.success i : CtorOutcome E I)
          hasBefore hasAfter).1.sharedCtorError = none ∧
      (restPrototypeMethodHandler (CtorOutcome.success i : CtorOutcome E I)
          hasBefore hasAfter).2 = _invokeMethodSteps hasBefore hasAfter := by
  intro E I e i hb ha
  refine ⟨rfl, rfl, rfl, ?_, rfl, rfl, rfl⟩
  show PipeStep.invokeInContext ∈ _invokeMethodSteps hb ha
  unfold _invokeMethodSteps
  cases hb <;> cases ha <;> simp

/-- C9 counterexample: with the legacy option present as `cors: false` the
guard does not throw — `createHandler` only throws when the value is neither
`undefined` nor `false`, so "throws whenever the cors option is present"
fails. -/
theorem createHandlerCorsGuard_false_ok :
    (({ cors := some (JsVal.boolV false) } : RemotesOptions).cors ≠ none) ∧
    createHandlerCorsGuard { cors := some (JsVal.boolV false) } = Except.ok () := by
  exact ⟨by simp, rfl⟩

/-- C9 (amended): `createHandlerCorsGuard` throws (synchronously, before any
router is built) exactly when the `cors` option is present with a value other
than `undefined` and other than `false`; when the option is absent,
construction proceeds without the error. -/
theorem createHandlerCorsGuard_spec :
    ∀ opts : RemotesOptions,
      (createHandlerCorsGuard opts = Except.error corsErrorMessage ↔
        ∃ v, opts.cors = some v ∧ v ≠ JsVal.jsUndefined ∧ v ≠ JsVal.boolV false) ∧
      (opts.cors = none → createHandlerCorsGuard opts = Except.ok ()) := by
  intro opts
  rcases opts with ⟨_ | v⟩
  · constructor
    · constructor
      · intro h
        cases h
      · rintro ⟨v, hv, _⟩
        cases hv
    · intro _
      rfl
  · have heval : createHandlerCorsGuard { cors := some v } =
        if v ≠ JsVal.jsUndefined ∧ v ≠ JsVal.boolV false then Except.error corsErrorMessage
        else Except.ok () := rfl
    constructor
    · rw [heval]
      by_cases h : v ≠ JsVal.jsUndefined ∧ v ≠ JsVal.boolV false
      · rw [if_pos h]
        constructor
        · intro _
          exact ⟨v, rfl, h.1, h.2⟩
        · intro _
          rfl
      · rw [if_neg h]
        constructor
        · intro hcontra
          cases hcontra
        · rintro ⟨v2, hv2, h1, h2⟩
          rw [Option.some.injEq] at hv2
          subst hv2
          exact absurd ⟨h1, h2⟩ h
    · intro h
      cases h

/-- C9 witness: absent option means no error. -/
theorem createHandlerCorsGuard_spec_witness :
    createHandlerCorsGuard { cors := none } = Except.ok () :=
  (createHandlerCorsGuard_spec { cors := none }).2 rfl

/-- C10 counterexample: the declared path `undefined` is a non-string, but it
is falsy, so `r.path || ('/' + name)` replaces it by the default before the
normalizer runs and the derived path is the string `"/x"`, not `undefined`. -/
theorem derivedDeclaredPathJs_undef_falls_back :
    JsVal.isString JsVal.jsUndefined = false ∧
    derivedDeclaredPathJs true "x" JsVal.jsUndefined = JsVal.str "/x" ∧
    derivedDeclaredPathJs true "x" JsVal.jsUndefined ≠ JsVal.jsUndefined := by
  decide

/-- C10 (amended): `normalizeHttpPath` returns `undefined` on every
non-string input (it never throws and never returns a path); consequently,
with normalization enabled, a declared route whose path is a truthy
non-string derives the path `undefined`, while a falsy declared path
(`undefined`, `null`, `0`, `false`, `""`) falls back to the default
`'/' + name` and derives a string path. -/
theorem normalizeHttpPath_nonstring :
    (∀ v : JsVal, v.isString = false → normalizeHttpPath v = JsVal.jsUndefined) ∧
    (∀ (name : String) (v : JsVal), v.isString = false → jsTruthy v = true →
      derivedDeclaredPathJs true name v = JsVal.jsUndefined) ∧
    (∀ (name : String) (v : JsVal), jsTruthy v = false →
      derivedDeclaredPathJs true name v =
        JsVal.str (normalizeHttpPathStr ("/" ++ name))) := by
  refine ⟨fun v hv => ?_, fun name v hv ht => ?_, fun name v ht => ?_⟩
  · cases v
    case str s => simp [JsVal.isString] at hv
    all_goals rfl
  · simp only [derivedDeclaredPathJs, ht, if_pos]
    cases v
    case str s => simp [JsVal.isString] at hv
    all_goals rfl
  · simp only [derivedDeclaredPathJs, ht]
    simp [normalizeHttpPath]

/-- C10 witness: a truthy non-string path (`5`) derives `undefined`. -/
theorem normalizeHttpPath_nonstring_witness :
    derivedDeclaredPathJs true "x" (JsVal.num 5) = JsVal.jsUndefined :=
  normalizeHttpPath_nonstring.2.1 "x" (JsVal.num 5) rfl (by decide)
